import Mathlib

/-!
Verification of the m3u playlist checker (`m3u-checker.js`).

The file shallowly embeds the five components of the checker:

* `parseM3UContent`  — the Document Parser (source lines 22–50);
* `checkSingleLink`  — the Resource Validator (source lines 60–120);
* `processLinksResult` — the value computed by the Bounded Concurrency
  Executor `processLinks` (source lines 129–161); the scheduling behaviour
  of that executor is modelled separately by the transition system
  `execStep` / `execTrace`;
* `generateOutputM3U` — the Document Rebuilder (source lines 171–229);
* `processDocument` / `mainRun` — the per-document decision logic and the
  document loop of `main` (source lines 237–347).

Network I/O is abstracted by a probe oracle `net : Str → FetchResult`
giving, for each URL, the response of one `HEAD` request, and by a URL
resolver `resolve : location → base → String` standing for
`new URL(location, base).href`.  Configuration constants of the script are
kept as the parameters they configure.
-/

namespace M3UChecker

/-- JavaScript strings are modelled as their character lists, so that
every string operation in the embedding is structurally recursive and
kernel-computable. -/
abbrev Str := List Char

/-- `String.prototype.startsWith(pre)`. -/
def strStartsWith (s pre : Str) : Bool :=
  pre.isPrefixOf s

/-- `String.prototype.trim()`: strip whitespace from both ends. -/
def strTrim (s : Str) : Str :=
  ((s.dropWhile Char.isWhitespace).reverse.dropWhile Char.isWhitespace).reverse

/-- `content.split('\n')`: split at every newline character; the empty
string yields `[""]`. -/
def splitNl : Str → List Str
  | [] => [[]]
  | c :: rest =>
    match splitNl rest with
    | [] => [[]]
    | l :: ls => if c = '\n' then [] :: l :: ls else (c :: l) :: ls

/-- `outputLines.join('\n')`. -/
def joinNl (ls : List Str) : Str :=
  List.intercalate ['\n'] ls

/-- The header literal `'#EXTM3U'` (source lines 173, 179, 275, 327). -/
def hdrTag : Str := "#EXTM3U".toList

/-- The metadata-marker prefix `'#EXTINF'` (source lines 32, 184). -/
def infTag : Str := "#EXTINF".toList

/-- The resource-URI scheme prefix `'http://'` (source lines 35, 209). -/
def httpTag : Str := "http://".toList

/-- The resource-URI scheme prefix `'https://'` (source lines 35, 209). -/
def httpsTag : Str := "https://".toList


/-- Configuration constant `concurrencyLimit = 10` (source line 13). -/
def concurrencyLimit : Nat := 10

/-- Configuration constant `maxRedirects = 3` (source line 15). -/
def maxRedirectsDefault : Nat := 3

/-- Outcome of a single `fetch(url, {method: 'HEAD', redirect: 'manual'})`:
either a response with a status code and the optional `location` header,
an abort by the timeout (`AbortError`), or any other transport error. -/
inductive FetchResult where
  | ok (status : Nat) (location : Option Str)
  | aborted
  | netError (msg : String)
deriving DecidableEq, Repr

/-- The `status` field of the object returned by `checkSingleLink`:
either a numeric HTTP status, the string `'timedout'`, or the string
`'invalid'`. -/
inductive JStatus where
  | code (n : Nat)
  | timedout
  | invalid
deriving DecidableEq, Repr

/-- The object returned by `checkSingleLink`:
`{url, status, finalUrl?}` (source lines 100, 105, 113, 118). -/
structure CheckResult where
  url : Str
  status : JStatus
  finalUrl : Option Str
deriving DecidableEq, Repr

/-- The Resource Validator `checkSingleLink` (source lines 60–120), as a
function of the probe oracle `net` and the URL resolver `resolve`.
On a `3xx` response with a `location` header and `redirectCount <
maxRedirects` it recurses on the resolved redirect target with the counter
incremented (lines 73–93); otherwise a `200` response yields
`{url, status, finalUrl: url}` (line 100), any other response yields
`{url, status}` (line 105), a timeout yields status `'timedout'`
(line 113) and any other error status `'invalid'` (line 118). -/
def checkSingleLink (net : Str → FetchResult) (resolve : Str → Str → Str)
    (maxRedirects : Nat) (url : Str) (redirectCount : Nat) : CheckResult :=
  match net url with
  | .ok status loc =>
    match loc with
    | some location =>
      if hr : 300 ≤ status ∧ status < 400 ∧ redirectCount < maxRedirects then
        checkSingleLink net resolve maxRedirects (resolve location url) (redirectCount + 1)
      else if status = 200 then
        { url := url, status := .code status, finalUrl := some url }
      else
        { url := url, status := .code status, finalUrl := none }
    | none =>
      if status = 200 then
        { url := url, status := .code status, finalUrl := some url }
      else
        { url := url, status := .code status, finalUrl := none }
  | .aborted => { url := url, status := .timedout, finalUrl := none }
  | .netError _ => { url := url, status := .invalid, finalUrl := none }
termination_by maxRedirects - redirectCount
decreasing_by omega

/-- The result of a single probe of `url` when no redirect can be followed
any more: the non-recursive tail of `checkSingleLink` (source lines
96–119).  Used to state that once the redirect budget is exhausted, the
last redirect target is still attempted once and its own status is
reported. -/
def oneProbe (net : Str → FetchResult) (url : Str) : CheckResult :=
  match net url with
  | .ok status _ =>
    if status = 200 then
      { url := url, status := .code status, finalUrl := some url }
    else
      { url := url, status := .code status, finalUrl := none }
  | .aborted => { url := url, status := .timedout, finalUrl := none }
  | .netError _ => { url := url, status := .invalid, finalUrl := none }

/-- One element of the array built by `parseM3UContent` (source lines
37–42): `{title, url, originalIndex, originalTitleLineIndex}`; the title
line index is `-1` when no `#EXTINF` line is pending. -/
structure LinkItem where
  title : Str
  url : Str
  originalIndex : Nat
  originalTitleLineIndex : Int
deriving DecidableEq, Repr

/-- One value of the `tempValidLinks` map (source lines 141–144):
`{titleLine, urlLine}`. -/
structure ValidEntry where
  titleLine : Str
  urlLine : Str
deriving DecidableEq, Repr

/-- The `tempValidLinks` JavaScript `Map`, keyed by original line index,
in insertion order. -/
abbrev ValidMap := List (Nat × ValidEntry)

/-- `Map.has` for `ValidMap`. -/
def mapHas (m : ValidMap) (k : Nat) : Bool :=
  m.any (fun p => p.1 = k)

/-- `Map.get` for `ValidMap`. -/
def mapGet (m : ValidMap) (k : Nat) : Option ValidEntry :=
  (m.find? (fun p => p.1 = k)).map (·.2)

/-- `Map.set` for `ValidMap`: replace the value in place if the key is
present, else append. -/
def mapSet (m : ValidMap) (k : Nat) (v : ValidEntry) : ValidMap :=
  if m.any (fun p => p.1 = k) then
    m.map (fun p => if p.1 = k then (k, v) else p)
  else
    m ++ [(k, v)]

/-- `Map.size` for `ValidMap`. -/
def mapSize (m : ValidMap) : Nat := m.length

/-- JavaScript `a || b` on strings (source line 140,
`result.finalUrl || item.url`): the empty string and a missing value are
falsy. -/
def jsOrString (a : Option Str) (b : Str) : Str :=
  match a with
  | some s => if s = [] then b else s
  | none => b

/-- The completion action of one link inside `processLinks` (source lines
136–150): the entry is inserted into `tempValidLinks` exactly when the
resolved status is `200`, keyed by `item.originalIndex`, storing
`result.finalUrl || item.url`. -/
def recordResult (m : ValidMap) (item : LinkItem) (result : CheckResult) : ValidMap :=
  if result.status = .code 200 then
    mapSet m item.originalIndex { titleLine := item.title, urlLine := jsOrString result.finalUrl item.url }
  else
    m

/-- The map returned by the Executor `processLinks` (source lines
129–161): every submitted item is validated from redirect count `0`, and
only `200` results are recorded.  The map's content is independent of the
completion order because each item writes only its own key. -/
def processLinksResult (net : Str → FetchResult) (resolve : Str → Str → Str)
    (maxRedirects : Nat) (links : List LinkItem) : ValidMap :=
  links.foldl (fun m item => recordResult m item (checkSingleLink net resolve maxRedirects item.url 0)) []

/-- Whether a trimmed line is recognised as a resource-reference line
(source lines 35, 209): it begins with `http://` or `https://`. -/
def isUrlLine (line : Str) : Bool :=
  strStartsWith line httpTag || strStartsWith line httpsTag

/-- The scanning loop of the Document Parser (source lines 29–48), carrying
the pending `currentTitle` / `currentTitleLineIndex` state.  An `#EXTINF`
line (trimmed) replaces the pending title; a resource line emits an entry
consuming the pending title and resets it to `('', -1)`; every other line
leaves the state unchanged. -/
def parseGo : List Str → Nat → Str → Int → List LinkItem
  | [], _, _, _ => []
  | lraw :: rest, i, currentTitle, currentTitleLineIndex =>
    if strStartsWith (strTrim lraw) infTag then
      parseGo rest (i + 1) (strTrim lraw) (Int.ofNat i)
    else if isUrlLine (strTrim lraw) then
      { title := currentTitle, url := strTrim lraw, originalIndex := i,
        originalTitleLineIndex := currentTitleLineIndex }
        :: parseGo rest (i + 1) [] (-1)
    else
      parseGo rest (i + 1) currentTitle currentTitleLineIndex

/-- The Document Parser `parseM3UContent` (source lines 22–50): split the
raw content on `'\n'` and scan from the top with empty pending state.
The `Nat` argument of `parseGo` is the index of the head of the remaining
line list within the full line list. -/
def parseM3UContent (m3uContent : Str) : List LinkItem :=
  parseGo (splitNl m3uContent) 0 [] (-1)

/-- The pair of `outputLines` and `addedLines` maintained by the Document
Rebuilder (source lines 173–174).  `addedLines` is the de-duplication
set. -/
structure GenState where
  outputLines : List Str
  addedLines : List Str
deriving DecidableEq, Repr

/-- Push a line guarded by the de-duplication set (the
`if (!addedLines.has(x)) { outputLines.push(x); addedLines.add(x); }`
pattern of source lines 193–200, 214–217, 223–226). -/
def pushIfNew (s : GenState) (line : Str) : GenState :=
  if line ∈ s.addedLines then s
  else { outputLines := s.outputLines ++ [line], addedLines := s.addedLines ++ [line] }

/-- The scanning loop of the Document Rebuilder (source lines 176–227).
A pre-existing header line is skipped (line 179); an `#EXTINF` line emits
the stored title and URL of the *following* line's map entry when that
entry exists, and skips the following line (lines 184–204); a resource
line emits its own stored URL when its index is a key (lines 209–219);
any other non-empty trimmed line is emitted; all emissions are
de-duplicated.
The `Nat` argument is the index of the head of the remaining line list
within the full line list, so the bound check `nextLineIndex <
originalLines.length` of line 188 becomes the tail being non-empty, and
`i = nextLineIndex; continue` becomes recursing past two lines.  The
iteration on the last line (whose `nextLineIndex` is out of range, so the
`#EXTINF` branch cannot emit) is unrolled into its own pattern. -/
def genLoop (m : ValidMap) : List Str → Nat → GenState → GenState
  | [], _, s => s
  | [lraw], i, s =>
    if strStartsWith (strTrim lraw) hdrTag then s
    else if strStartsWith (strTrim lraw) infTag then s
    else if isUrlLine (strTrim lraw) then
      match mapGet m i with
      | some v => pushIfNew s v.urlLine
      | none => s
    else if (strTrim lraw).length > 0 then pushIfNew s (strTrim lraw)
    else s
  | lraw :: l2 :: rest2, i, s =>
    if strStartsWith (strTrim lraw) hdrTag then
      genLoop m (l2 :: rest2) (i + 1) s
    else if strStartsWith (strTrim lraw) infTag then
      match mapGet m (i + 1) with
      | some v =>
        genLoop m rest2 (i + 2) (pushIfNew (pushIfNew s v.titleLine) v.urlLine)
      | none => genLoop m (l2 :: rest2) (i + 1) s
    else if isUrlLine (strTrim lraw) then
      match mapGet m i with
      | some v => genLoop m (l2 :: rest2) (i + 1) (pushIfNew s v.urlLine)
      | none => genLoop m (l2 :: rest2) (i + 1) s
    else if (strTrim lraw).length > 0 then
      genLoop m (l2 :: rest2) (i + 1) (pushIfNew s (strTrim lraw))
    else
      genLoop m (l2 :: rest2) (i + 1) s

/-- The list `outputLines` produced by the Rebuilder for a document and a
validated map, starting with the fixed header (source line 173). -/
def generateOutputLines (originalM3uContent : Str) (m : ValidMap) : List Str :=
  (genLoop m (splitNl originalM3uContent) 0
    { outputLines := [hdrTag], addedLines := [hdrTag] }).outputLines

/-- The Document Rebuilder `generateOutputM3U` (source lines 171–229):
the output lines joined with `'\n'` (line 228). -/
def generateOutputM3U (originalM3uContent : Str) (m : ValidMap) : Str :=
  joinNl (generateOutputLines originalM3uContent m)

/-- The per-document decision of `main` (source lines 265–338): with zero
parsed links, rebuild with an empty map and persist only when the result
trims to more than the bare header (lines 271–294); with links but zero
valid ones, persist nothing (lines 309–316); otherwise persist the rebuilt
content unless it degenerates to the bare header (lines 320–338).
Returns the persisted content, or `none` when nothing is written. -/
def processDocument (net : Str → FetchResult) (resolve : Str → Str → Str)
    (maxRedirects : Nat) (content : Str) : Option Str :=
  let linksToProcess := parseM3UContent content
  if linksToProcess.length = 0 then
    let out := generateOutputM3U content []
    if strTrim out ≠ hdrTag then some out else none
  else
    let tempValidLinks := processLinksResult net resolve maxRedirects linksToProcess
    if mapSize tempValidLinks = 0 then none
    else
      let out := generateOutputM3U content tempValidLinks
      if strTrim out = hdrTag then none else some out

/-- The document loop of `main` (source lines 258–339) with its single
surrounding `try`/`catch` that terminates the whole process on the first
error (lines 343–346).  `read` and `write` model `fs.readFile` /
`fs.writeFile`; the function returns the per-document results produced
before any failure, paired with the error that aborted the run, if any. -/
def mainRun (read : String → Except String Str) (write : String → Str → Except String Unit)
    (net : Str → FetchResult) (resolve : Str → Str → Str) (maxRedirects : Nat) :
    List String → List (String × Option Str) × Option String
  | [] => ([], none)
  | fileName :: rest =>
    match read fileName with
    | .error e => ([], some e)
    | .ok content =>
      match processDocument net resolve maxRedirects content with
      | none =>
        let r := mainRun read write net resolve maxRedirects rest
        ((fileName, none) :: r.1, r.2)
      | some out =>
        match write fileName out with
        | .error e => ([], some e)
        | .ok _ =>
          let r := mainRun read write net resolve maxRedirects rest
          ((fileName, some out) :: r.1, r.2)

/-- State of the Executor's scheduling loop (source lines 129–161):
`nextIdx` is the loop counter `i`, `active` the set `activePromises`
(as the list of in-flight link indices), `done` the indices whose
completion handler has run. -/
structure ExecState where
  nextIdx : Nat
  active : List Nat
  done : List Nat
deriving DecidableEq, Repr

/-- The initial executor state: no link submitted, none in flight. -/
def execInit : ExecState := { nextIdx := 0, active := [], done := [] }

/-- Events of the Executor's scheduling loop: `submit` starts the probe of
the next link (the loop body at source lines 134–156 — it runs only while
fewer than `concurrencyLimit` promises are in flight, because the loop
`await`s `Promise.race` whenever the set is full, and a promise leaves the
set when it settles); `complete j` is the completion handler of link `j`
(lines 136–150). -/
inductive ExecEvent where
  | submit
  | complete (j : Nat)
deriving DecidableEq, Repr

/-- One atomic transition of the Executor's scheduling loop for `total`
links under concurrency limit `limit`: `none` when the event is not
enabled in the given state. -/
def execStep (total limit : Nat) (s : ExecState) (e : ExecEvent) : Option ExecState :=
  match e with
  | .submit =>
    if s.nextIdx < total ∧ s.active.length < limit then
      some { nextIdx := s.nextIdx + 1, active := s.active ++ [s.nextIdx], done := s.done }
    else none
  | .complete j =>
    if j ∈ s.active then
      some { nextIdx := s.nextIdx, active := s.active.erase j, done := s.done ++ [j] }
    else none

/-- Run the Executor's scheduling loop over a sequence of events from the
initial state; `none` when some event was not enabled. -/
def execTrace (total limit : Nat) (events : List ExecEvent) : Option ExecState :=
  events.foldl (fun os e => os.bind (fun s => execStep total limit s e)) (some execInit)

/-- `processLinks` returns at the `Promise.allSettled` of source line 159:
the loop has submitted every link and no promise is still in flight. -/
def execFinished (total : Nat) (s : ExecState) : Prop :=
  s.nextIdx = total ∧ s.active = []

/-! ### Rebuilder invariants -/

/-- `outputLines` and `addedLines` hold the same set of lines: the code
adds a line to both containers together (source lines 173–174, 193–200,
214–217, 223–226). -/
def GenSync (s : GenState) : Prop :=
  ∀ x, x ∈ s.outputLines ↔ x ∈ s.addedLines

lemma genSync_init : GenSync { outputLines := [hdrTag], addedLines := [hdrTag] } := by
  intro x; simp

lemma pushIfNew_sync {s : GenState} (hs : GenSync s) (l : Str) :
    GenSync (pushIfNew s l) := by
  unfold pushIfNew
  split
  · exact hs
  · intro x
    simp only [List.mem_append, List.mem_singleton]
    exact or_congr (hs x) Iff.rfl

lemma pushIfNew_nodup {s : GenState} (hs : GenSync s) (hn : s.outputLines.Nodup)
    (l : Str) : (pushIfNew s l).outputLines.Nodup := by
  unfold pushIfNew
  split
  · exact hn
  · rename_i hnotin
    refine List.Nodup.append hn (List.nodup_singleton l) ?_
    intro x hx hxl
    rw [List.mem_singleton] at hxl
    subst hxl
    exact hnotin ((hs x).mp hx)

/-- Both line containers of the Rebuilder only ever grow. -/
def SubState (s t : GenState) : Prop :=
  s.outputLines ⊆ t.outputLines ∧ s.addedLines ⊆ t.addedLines

lemma subState_refl (s : GenState) : SubState s s :=
  ⟨fun _ h => h, fun _ h => h⟩

lemma subState_trans {a b c : GenState} (h1 : SubState a b) (h2 : SubState b c) :
    SubState a c :=
  ⟨h1.1.trans h2.1, h1.2.trans h2.2⟩

lemma subState_pushIfNew (s : GenState) (l : Str) : SubState s (pushIfNew s l) := by
  unfold pushIfNew
  split
  · exact subState_refl s
  · exact ⟨List.subset_append_left _ _, List.subset_append_left _ _⟩

lemma genLoop_subState (m : ValidMap) :
    ∀ (lines : List Str) (i : Nat) (s : GenState), SubState s (genLoop m lines i s) := by
  intro lines i s
  induction lines, i, s using genLoop.induct m with
  | case1 i s => rw [genLoop]; exact subState_refl s
  | case2 lraw i s hdr => rw [genLoop]; simp [hdr]; exact subState_refl s
  | case3 lraw i s hdr hinf =>
    rw [genLoop]; simp [hdr, hinf]; exact subState_refl s
  | case4 lraw i s hdr hinf hurl v hv =>
    rw [genLoop]; simp [hdr, hinf, hurl, hv]; exact subState_pushIfNew s v.urlLine
  | case5 lraw i s hdr hinf hurl hv =>
    rw [genLoop]; simp [hdr, hinf, hurl, hv]; exact subState_refl s
  | case6 lraw i s hdr hinf hurl hlen =>
    rw [genLoop]; simp [hdr, hinf, hurl, hlen]; exact subState_pushIfNew s (strTrim lraw)
  | case7 lraw i s hdr hinf hurl hlen =>
    rw [genLoop]; simp [hdr, hinf, hurl, hlen]; exact subState_refl s
  | case8 lraw l2 rest2 i s hdr ih =>
    rw [genLoop]; simp [hdr]; exact ih
  | case9 lraw l2 rest2 i s hdr hinf v hv ih =>
    rw [genLoop]; simp [hdr, hinf, hv]
    exact subState_trans (subState_pushIfNew _ _)
      (subState_trans (subState_pushIfNew _ _) ih)
  | case10 lraw l2 rest2 i s hdr hinf hv ih =>
    rw [genLoop]; simp [hdr, hinf, hv]; exact ih
  | case11 lraw l2 rest2 i s hdr hinf hurl v hv ih =>
    rw [genLoop]; simp [hdr, hinf, hurl, hv]
    exact subState_trans (subState_pushIfNew _ _) ih
  | case12 lraw l2 rest2 i s hdr hinf hurl hv ih =>
    rw [genLoop]; simp [hdr, hinf, hurl, hv]; exact ih
  | case13 lraw l2 rest2 i s hdr hinf hurl hlen ih =>
    rw [genLoop]; simp [hdr, hinf, hurl, hlen]
    exact subState_trans (subState_pushIfNew _ _) ih
  | case14 lraw l2 rest2 i s hdr hinf hurl hlen ih =>
    rw [genLoop]; simp [hdr, hinf, hurl, hlen]; exact ih

/-- Any property of the Rebuilder state that is preserved by the three
kinds of guarded pushes is an invariant of the rebuild loop. -/
lemma genLoop_preserves (m : ValidMap) (P : GenState → Prop)
    (hextinf : ∀ k v s, mapGet m k = some v → P s →
      P (pushIfNew (pushIfNew s v.titleLine) v.urlLine))
    (hurl : ∀ k v s, mapGet m k = some v → P s → P (pushIfNew s v.urlLine))
    (hline : ∀ (line : Str) s, ¬ strStartsWith line hdrTag = true →
      ¬ strStartsWith line infTag = true → ¬ isUrlLine line = true →
      line.length > 0 → P s → P (pushIfNew s line)) :
    ∀ (lines : List Str) (i : Nat) (s : GenState), P s → P (genLoop m lines i s) := by
  intro lines i s
  induction lines, i, s using genLoop.induct m with
  | case1 i s => intro hP; rw [genLoop]; exact hP
  | case2 lraw i s hdr => intro hP; rw [genLoop]; simp only [hdr, if_pos]; exact hP
  | case3 lraw i s hdr hinf =>
    intro hP; rw [genLoop]; simp [hdr, hinf]; exact hP
  | case4 lraw i s hdr hinf hu v hv =>
    intro hP; rw [genLoop]; simp [hdr, hinf, hu, hv]; exact hurl i v s hv hP
  | case5 lraw i s hdr hinf hu hv =>
    intro hP; rw [genLoop]; simp [hdr, hinf, hu, hv]; exact hP
  | case6 lraw i s hdr hinf hu hlen =>
    intro hP; rw [genLoop]; simp [hdr, hinf, hu, hlen]
    exact hline (strTrim lraw) s hdr hinf hu hlen hP
  | case7 lraw i s hdr hinf hu hlen =>
    intro hP; rw [genLoop]; simp [hdr, hinf, hu, hlen]; exact hP
  | case8 lraw l2 rest2 i s hdr ih =>
    intro hP; rw [genLoop]; simp [hdr]; exact ih hP
  | case9 lraw l2 rest2 i s hdr hinf v hv ih =>
    intro hP; rw [genLoop]; simp [hdr, hinf, hv]
    exact ih (hextinf (i + 1) v s hv hP)
  | case10 lraw l2 rest2 i s hdr hinf hv ih =>
    intro hP; rw [genLoop]; simp [hdr, hinf, hv]; exact ih hP
  | case11 lraw l2 rest2 i s hdr hinf hu v hv ih =>
    intro hP; rw [genLoop]; simp [hdr, hinf, hu, hv]
    exact ih (hurl i v s hv hP)
  | case12 lraw l2 rest2 i s hdr hinf hu hv ih =>
    intro hP; rw [genLoop]; simp [hdr, hinf, hu, hv]; exact ih hP
  | case13 lraw l2 rest2 i s hdr hinf hu hlen ih =>
    intro hP; rw [genLoop]; simp [hdr, hinf, hu, hlen]
    exact ih (hline (strTrim lraw) s hdr hinf hu hlen hP)
  | case14 lraw l2 rest2 i s hdr hinf hu hlen ih =>
    intro hP; rw [genLoop]; simp [hdr, hinf, hu, hlen]; exact ih hP

lemma genLoop_sync_nodup (m : ValidMap) (lines : List Str) (i : Nat) (s : GenState)
    (hs : GenSync s) (hn : s.outputLines.Nodup) :
    GenSync (genLoop m lines i s) ∧ (genLoop m lines i s).outputLines.Nodup := by
  have h := genLoop_preserves m (fun t => GenSync t ∧ t.outputLines.Nodup)
    (fun _ v t _ ht => ⟨pushIfNew_sync (pushIfNew_sync ht.1 _) _,
      pushIfNew_nodup (pushIfNew_sync ht.1 _) (pushIfNew_nodup ht.1 ht.2 _) _⟩)
    (fun _ v t _ ht => ⟨pushIfNew_sync ht.1 _, pushIfNew_nodup ht.1 ht.2 _⟩)
    (fun l t _ _ _ _ ht => ⟨pushIfNew_sync ht.1 _, pushIfNew_nodup ht.1 ht.2 _⟩)
    lines i s ⟨hs, hn⟩
  exact h

/-- C5: For all original documents and all validated sets, every exact
line value — including the header line and previously emitted metadata
and resource lines — appears at most once in the rebuild output (the
emitted line list is duplicate-free), regardless of why it qualified for
emission. -/
theorem rebuild_output_nodup (content : Str) (m : ValidMap) :
    (generateOutputLines content m).Nodup := by
  have h := genLoop_sync_nodup m (splitNl content) 0
    { outputLines := [hdrTag], addedLines := [hdrTag] }
    genSync_init (List.nodup_singleton _)
  exact h.2

/-! ### Validator lemmas -/

/-- Once `redirectCount` has reached `maxRedirects`, `checkSingleLink`
performs exactly one probe of its URL and reports that probe's own
outcome: the redirect branch (source line 77) is disabled and the
remainder of the function (lines 96–119) is `oneProbe`. -/
lemma checkSingleLink_at_limit (net : Str → FetchResult)
    (resolve : Str → Str → Str) (M : Nat) (url : Str) :
    checkSingleLink net resolve M url M = oneProbe net url := by
  rw [checkSingleLink, oneProbe]
  cases net url with
  | ok status loc =>
    cases loc with
    | some location =>
      have hno : ¬(300 ≤ status ∧ status < 400 ∧ M < M) := by omega
      simp only [hno, dite_false, dif_neg]
    | none => rfl
  | aborted => rfl
  | netError msg => rfl

/-- One redirect hop of `checkSingleLink` (source lines 73–93). -/
lemma checkSingleLink_redirect (net : Str → FetchResult)
    (resolve : Str → Str → Str) (M : Nat) (url : Str) (c : Nat)
    (status : Nat) (location : Str)
    (h : net url = .ok status (some location))
    (h3 : 300 ≤ status) (h4 : status < 400) (hc : c < M) :
    checkSingleLink net resolve M url c
      = checkSingleLink net resolve M (resolve location url) (c + 1) := by
  conv_lhs => rw [checkSingleLink]
  simp [h, h3, h4, hc]

/-- A result with status `200` always carries `finalUrl` equal to the URL
of the final hop (source line 100), whatever the redirect depth. -/
lemma checkSingleLink_200_finalUrl (net : Str → FetchResult)
    (resolve : Str → Str → Str) (M : Nat) :
    ∀ url c, (checkSingleLink net resolve M url c).status = .code 200 →
      (checkSingleLink net resolve M url c).finalUrl
        = some (checkSingleLink net resolve M url c).url := by
  intro url c
  induction url, c using checkSingleLink.induct net resolve M with
  | case1 url c a location hr h1 ih =>
    rw [checkSingleLink_redirect net resolve M url c a location h1 hr.1 hr.2.1 hr.2.2]
    exact ih
  | case2 url c location hr h1 =>
    rw [checkSingleLink]
    simp [h1, hr]
  | case3 url c a location hr hs h1 =>
    rw [checkSingleLink]
    simp [h1, hr, hs]
  | case4 url c h1 =>
    rw [checkSingleLink]
    simp [h1]
  | case5 url c a hs h1 =>
    rw [checkSingleLink]
    simp [h1, hs]
  | case6 url c h1 =>
    rw [checkSingleLink]
    simp [h1]
  | case7 url c a h1 =>
    rw [checkSingleLink]
    simp [h1]

/-! ### Map and executor-result lemmas -/

lemma mapHas_iff (m : ValidMap) (k : Nat) :
    mapHas m k = true ↔ ∃ p ∈ m, p.1 = k := by
  simp [mapHas, List.any_eq_true]

lemma mapHas_mapSet_self (m : ValidMap) (k : Nat) (v : ValidEntry) :
    mapHas (mapSet m k v) k = true := by
  rw [mapHas_iff]
  unfold mapSet
  split
  · rename_i hk
    rw [List.any_eq_true] at hk
    obtain ⟨p, hp, hpk⟩ := hk
    rw [decide_eq_true_eq] at hpk
    exact ⟨(k, v), List.mem_map.mpr ⟨p, hp, by simp [hpk]⟩, rfl⟩
  · exact ⟨(k, v), by simp, rfl⟩

lemma mapHas_mapSet_other (m : ValidMap) (k : Nat) (v : ValidEntry) (k' : Nat)
    (hne : k' ≠ k) : mapHas (mapSet m k v) k' = mapHas m k' := by
  rw [Bool.eq_iff_iff, mapHas_iff, mapHas_iff]
  unfold mapSet
  split
  · constructor
    · rintro ⟨p, hp, hpk⟩
      rw [List.mem_map] at hp
      obtain ⟨q, hq, hfq⟩ := hp
      by_cases hqk : q.1 = k
      · rw [if_pos hqk] at hfq
        rw [← hfq] at hpk
        exact ((hne (by simpa using hpk.symm)).elim)
      · rw [if_neg hqk] at hfq
        rw [← hfq] at hpk
        exact ⟨q, hq, hpk⟩
    · rintro ⟨p, hp, hpk⟩
      refine ⟨p, List.mem_map.mpr ⟨p, hp, ?_⟩, hpk⟩
      rw [if_neg]
      rw [hpk]
      exact hne
  · constructor
    · rintro ⟨p, hp, hpk⟩
      rcases List.mem_append.mp hp with hp' | hp'
      · exact ⟨p, hp', hpk⟩
      · rw [List.mem_singleton] at hp'
        subst hp'
        exact ((hne (by simpa using hpk.symm)).elim)
    · rintro ⟨p, hp, hpk⟩
      exact ⟨p, List.mem_append.mpr (Or.inl hp), hpk⟩

lemma mapSize_mapSet (m : ValidMap) (k : Nat) (v : ValidEntry) :
    mapSize (mapSet m k v) ≤ mapSize m + 1 := by
  unfold mapSize mapSet
  split
  · simp
  · simp

lemma recordResult_has (m : ValidMap) (item : LinkItem) (result : CheckResult) (k : Nat) :
    mapHas (recordResult m item result) k = true
      ↔ (result.status = .code 200 ∧ k = item.originalIndex) ∨ mapHas m k = true := by
  unfold recordResult
  split
  · rename_i h200
    by_cases hk : k = item.originalIndex
    · subst hk
      simp [mapHas_mapSet_self, h200]
    · rw [mapHas_mapSet_other m item.originalIndex _ k hk]
      simp [hk]
  · rename_i h200
    simp [h200]

lemma recordResult_size (m : ValidMap) (item : LinkItem) (result : CheckResult) :
    mapSize (recordResult m item result) ≤ mapSize m + 1 := by
  unfold recordResult
  split
  · exact mapSize_mapSet m item.originalIndex _
  · omega

lemma processLinks_go_has (net : Str → FetchResult) (resolve : Str → Str → Str)
    (M : Nat) (links : List LinkItem) : ∀ (m0 : ValidMap) (k : Nat),
    mapHas (links.foldl (fun m item =>
        recordResult m item (checkSingleLink net resolve M item.url 0)) m0) k = true
      ↔ (∃ item ∈ links, item.originalIndex = k
            ∧ (checkSingleLink net resolve M item.url 0).status = .code 200)
        ∨ mapHas m0 k = true := by
  induction links with
  | nil => intro m0 k; simp
  | cons it rest ih =>
    intro m0 k
    rw [List.foldl_cons, ih, recordResult_has]
    constructor
    · rintro (⟨item, hmem, hidx, hst⟩ | (⟨hst, hidx⟩ | hm))
      · exact Or.inl ⟨item, List.mem_cons_of_mem it hmem, hidx, hst⟩
      · exact Or.inl ⟨it, List.mem_cons_self it rest, hidx.symm, hst⟩
      · exact Or.inr hm
    · rintro (⟨item, hmem, hidx, hst⟩ | hm)
      · rcases List.mem_cons.mp hmem with heq | hmem'
        · subst heq
          exact Or.inr (Or.inl ⟨hst, hidx.symm⟩)
        · exact Or.inl ⟨item, hmem', hidx, hst⟩
      · exact Or.inr (Or.inr hm)

lemma processLinks_go_size (net : Str → FetchResult) (resolve : Str → Str → Str)
    (M : Nat) (links : List LinkItem) : ∀ (m0 : ValidMap),
    mapSize (links.foldl (fun m item =>
        recordResult m item (checkSingleLink net resolve M item.url 0)) m0)
      ≤ mapSize m0 + links.length := by
  induction links with
  | nil => intro m0; simp
  | cons it rest ih =>
    intro m0
    rw [List.foldl_cons]
    have h1 := ih (recordResult m0 it (checkSingleLink net resolve M it.url 0))
    have h2 := recordResult_size m0 it (checkSingleLink net resolve M it.url 0)
    simp only [List.length_cons]
    omega

/-- Key membership of the Executor's result map: a position is present
exactly when some submitted item has that `originalIndex` and resolved
with status `200`. -/
lemma processLinksResult_has (net : Str → FetchResult) (resolve : Str → Str → Str)
    (M : Nat) (links : List LinkItem) (k : Nat) :
    mapHas (processLinksResult net resolve M links) k = true
      ↔ ∃ item ∈ links, item.originalIndex = k
          ∧ (checkSingleLink net resolve M item.url 0).status = .code 200 := by
  unfold processLinksResult
  rw [processLinks_go_has]
  simp [mapHas]

/-! ### Executor scheduling invariants -/

/-- The global invariant of the scheduling loop: never more than `limit`
probes in flight, and the in-flight or completed indices are exactly the
submitted ones. -/
def ExecInv (total limit : Nat) (s : ExecState) : Prop :=
  s.active.length ≤ limit
  ∧ (∀ j, (j ∈ s.active ∨ j ∈ s.done) ↔ j < s.nextIdx)
  ∧ s.nextIdx ≤ total

lemma execInv_init (total limit : Nat) : ExecInv total limit execInit := by
  refine ⟨by simp [execInit], ?_, by simp [execInit]⟩
  intro j
  simp [execInit]

lemma execStep_inv {total limit : Nat} {s s' : ExecState} {e : ExecEvent}
    (hs : ExecInv total limit s) (h : execStep total limit s e = some s') :
    ExecInv total limit s' := by
  obtain ⟨hlen, hmem, htot⟩ := hs
  cases e with
  | submit =>
    simp only [execStep] at h
    split at h
    · rename_i hcond
      rw [Option.some_inj] at h
      subst h
      refine ⟨by simp only [List.length_append, List.length_singleton]; omega, ?_,
        by show s.nextIdx + 1 ≤ total; omega⟩
      intro j
      simp only [List.mem_append, List.mem_singleton]
      constructor
      · rintro ((hj | hj) | hj)
        · have := (hmem j).mp (Or.inl hj); omega
        · omega
        · have := (hmem j).mp (Or.inr hj); omega
      · intro hj
        rcases Nat.lt_succ_iff_lt_or_eq.mp hj with hj' | hj'
        · rcases (hmem j).mpr hj' with hja | hjd
          · exact Or.inl (Or.inl hja)
          · exact Or.inr hjd
        · exact Or.inl (Or.inr hj')
    · simp at h
  | complete j =>
    simp only [execStep] at h
    split at h
    · rename_i hj
      rw [Option.some_inj] at h
      subst h
      refine ⟨?_, ?_, by simpa using htot⟩
      · calc (s.active.erase j).length ≤ s.active.length :=
              (List.erase_sublist j s.active).length_le
          _ ≤ limit := hlen
      · intro x
        simp only [List.mem_append, List.mem_singleton]
        constructor
        · rintro (hx | (hx | hx))
          · exact (hmem x).mp (Or.inl (List.mem_of_mem_erase hx))
          · exact (hmem x).mp (Or.inr hx)
          · subst hx; exact (hmem x).mp (Or.inl hj)
        · intro hx
          rcases (hmem x).mpr hx with hxa | hxd
          · by_cases hxj : x = j
            · subst hxj; exact Or.inr (Or.inr rfl)
            · exact Or.inl ((List.mem_erase_of_ne hxj).mpr hxa)
          · exact Or.inr (Or.inl hxd)
    · simp at h

lemma execTrace_go_none (total limit : Nat) : ∀ (events : List ExecEvent),
    events.foldl (fun os e => os.bind (fun t => execStep total limit t e))
      (none : Option ExecState) = none := by
  intro events
  induction events with
  | nil => rfl
  | cons e rest ih => simpa using ih

lemma execTrace_go_inv (total limit : Nat) (events : List ExecEvent) :
    ∀ (s0 : ExecState), ExecInv total limit s0 →
    ∀ s, events.foldl (fun os e => os.bind (fun t => execStep total limit t e)) (some s0) = some s →
    ExecInv total limit s := by
  induction events with
  | nil =>
    intro s0 h0 s hs
    simp at hs
    subst hs
    exact h0
  | cons e rest ih =>
    intro s0 h0 s hs
    rw [List.foldl_cons] at hs
    simp only [Option.some_bind] at hs
    cases hstep : execStep total limit s0 e with
    | none =>
      rw [hstep] at hs
      rw [execTrace_go_none total limit rest] at hs
      exact absurd hs (by simp)
    | some s1 =>
      rw [hstep] at hs
      exact ih s1 (execStep_inv h0 hstep) s hs

/-- Every state reached by the Executor's scheduling loop satisfies
`ExecInv`. -/
lemma execTrace_inv {total limit : Nat} {events : List ExecEvent} {s : ExecState}
    (h : execTrace total limit events = some s) : ExecInv total limit s :=
  execTrace_go_inv total limit events execInit (execInv_init total limit) s h

/-! ### Concrete instances used in witnesses and counterexamples -/

/-- A URL resolver that returns the redirect target verbatim (absolute
`location` headers). -/
def cRes : Str → Str → Str := fun l _ => l

/-- A network where every URL answers `200` with no `location` header. -/
def cNet200 : Str → FetchResult := fun _ => .ok 200 none

/-- A network answering `204 No Content` everywhere. -/
def cNet204 : Str → FetchResult := fun _ => .ok 204 none

/-- A network with the redirect chain `u0 → u1 → u2 → u3`, where `u3`
itself answers with a further redirect (`307` to `u4`). -/
def cNetChain : Str → FetchResult := fun u =>
  if u = "u0".toList then .ok 301 (some "u1".toList)
  else if u = "u1".toList then .ok 302 (some "u2".toList)
  else if u = "u2".toList then .ok 303 (some "u3".toList)
  else if u = "u3".toList then .ok 307 (some "u4".toList)
  else .ok 200 none

/-- The URLs of the `cNetChain` redirect chain. -/
def cChain : Nat → Str := fun k =>
  match k with
  | 0 => "u0".toList
  | 1 => "u1".toList
  | 2 => "u2".toList
  | _ => "u3".toList

/-- The statuses of the `cNetChain` redirect chain. -/
def cStatus : Nat → Nat := fun k => 301 + k

/-- The `location` headers of the `cNetChain` redirect chain. -/
def cLoc : Nat → Str := fun k =>
  match k with
  | 0 => "u1".toList
  | 1 => "u2".toList
  | _ => "u3".toList

/-- A sample parsed entry. -/
def cItemA : LinkItem :=
  { title := "#EXTINF:-1,A".toList, url := "http://a".toList, originalIndex := 2,
    originalTitleLineIndex := 1 }

/-! ### Claim theorems: Validator and Executor -/

/-- C2: For every entry whose redirect chain reaches the configured
`maxRedirects`, the validator treats the last redirect target itself as
the probe subject and attempts it once more rather than auto-failing at
the limit: after following `M` redirect hops along `chain`, the result of
the whole validation equals the result of a single probe of the last
redirect target `chain M`, so the outcome reflects whatever status that
final attempted hop returned, never an automatic failure. -/
theorem checkSingleLink_attempts_final_hop (net : Str → FetchResult)
    (resolve : Str → Str → Str) (M : Nat) (chain : Nat → Str)
    (status : Nat → Nat) (loc : Nat → Str)
    (hchain : ∀ k, k < M →
      net (chain k) = .ok (status k) (some (loc k))
      ∧ 300 ≤ status k ∧ status k < 400
      ∧ chain (k + 1) = resolve (loc k) (chain k)) :
    checkSingleLink net resolve M (chain 0) 0 = oneProbe net (chain M) := by
  have key : ∀ d j, j + d = M →
      checkSingleLink net resolve M (chain j) j
        = checkSingleLink net resolve M (chain M) M := by
    intro d
    induction d with
    | zero =>
      intro j hj
      have hjM : j = M := by omega
      subst hjM
      rfl
    | succ d ihd =>
      intro j hj
      have hjM : j < M := by omega
      obtain ⟨h1, h2, h3, h4⟩ := hchain j hjM
      rw [checkSingleLink_redirect net resolve M (chain j) j (status j) (loc j) h1 h2 h3 hjM]
      rw [← h4]
      exact ihd (j + 1) (by omega)
  rw [key M 0 (by omega)]
  exact checkSingleLink_at_limit net resolve M (chain M)

/-- Witness for C2: with `maxRedirects = 3` and the concrete chain
`u0 → u1 → u2 → u3`, validation of `u0` equals one probe of `u3`, and
that probe returned `307`: the outcome is `Unreachable(307)`, not an
automatic failure constant. -/
theorem checkSingleLink_attempts_final_hop_witness :
    checkSingleLink cNetChain cRes 3 "u0".toList 0 = oneProbe cNetChain "u3".toList
    ∧ oneProbe cNetChain "u3".toList
        = { url := "u3".toList, status := .code 307, finalUrl := none } := by
  constructor
  · exact checkSingleLink_attempts_final_hop cNetChain cRes 3 cChain cStatus cLoc (by decide)
  · simp [oneProbe, cNetChain]

/-- C3 counterexample: the claim says any `2xx` final status yields
`Reachable`; but on a final `204 No Content` (a `2xx` status) the
validator returns no `finalUrl` (line 105, not the `Reachable` shape of
line 100, which requires exactly `200`), and the executor does not count
the entry: the resulting `ValidatedSet` is empty. -/
theorem reachable_any_2xx_cex :
    (200 ≤ 204 ∧ 204 < 300)
    ∧ checkSingleLink cNet204 cRes 3 "http://a".toList 0
        = { url := "http://a".toList, status := .code 204, finalUrl := none }
    ∧ processLinksResult cNet204 cRes 3
        [{ title := [], url := "http://a".toList, originalIndex := 1,
           originalTitleLineIndex := -1 }] = [] := by
  refine ⟨by omega, ?_, ?_⟩
  · rw [checkSingleLink]
    simp [cNet204]
  · rw [processLinksResult]
    rw [List.foldl_cons, List.foldl_nil]
    rw [recordResult]
    rw [checkSingleLink]
    simp [cNet204]

/-- C3 (amended): For every probe whose (possibly redirect-resolved)
final response carries status exactly `200` — not any other `2xx` —
`checkSingleLink` returns a result carrying the current (final-hop) URI
as `finalUrl`, and that entry is counted as reachable by the executor:
its original position is a key of the returned set. -/
theorem status200_reachable_and_counted (net : Str → FetchResult)
    (resolve : Str → Str → Str) (M : Nat) (links : List LinkItem)
    (item : LinkItem) (hmem : item ∈ links)
    (h200 : (checkSingleLink net resolve M item.url 0).status = .code 200) :
    (checkSingleLink net resolve M item.url 0).finalUrl
      = some (checkSingleLink net resolve M item.url 0).url
    ∧ mapHas (processLinksResult net resolve M links) item.originalIndex = true := by
  refine ⟨checkSingleLink_200_finalUrl net resolve M item.url 0 h200, ?_⟩
  rw [processLinksResult_has]
  exact ⟨item, hmem, rfl, h200⟩

/-- Witness for the amended C3 at a concrete `200` probe. -/
theorem status200_reachable_and_counted_witness :
    (checkSingleLink cNet200 cRes 3 "http://a".toList 0).finalUrl
      = some (checkSingleLink cNet200 cRes 3 "http://a".toList 0).url
    ∧ mapHas (processLinksResult cNet200 cRes 3
        [{ title := [], url := "http://a".toList, originalIndex := 1,
           originalTitleLineIndex := -1 }]) 1 = true := by
  exact status200_reachable_and_counted cNet200 cRes 3
    [{ title := [], url := "http://a".toList, originalIndex := 1, originalTitleLineIndex := -1 }]
    { title := [], url := "http://a".toList, originalIndex := 1, originalTitleLineIndex := -1 }
    (List.mem_singleton_self _)
    (by rw [checkSingleLink]; simp [cNet200])

/-- C1: For every list of parsed entries, the returned `ValidatedSet`
contains exactly those entries whose validation outcome was Reachable
(final status `200`), each keyed by its entry's original resource-line
position, and its size is at most the number of submitted entries;
moreover `runAll` returns only after every submitted entry has resolved:
in the scheduling model, when the loop has ended and `Promise.allSettled`
has been awaited (`execFinished`), every submitted index has completed. -/
theorem processLinks_returns_complete_reachable_set (net : Str → FetchResult)
    (resolve : Str → Str → Str) (M : Nat) (links : List LinkItem) (K : Nat) :
    (∀ k, mapHas (processLinksResult net resolve M links) k = true
        ↔ ∃ item ∈ links, item.originalIndex = k
            ∧ (checkSingleLink net resolve M item.url 0).status = .code 200)
    ∧ mapSize (processLinksResult net resolve M links) ≤ links.length
    ∧ (∀ events s, execTrace links.length K events = some s →
        execFinished links.length s → ∀ j, j < links.length → j ∈ s.done) := by
  refine ⟨fun k => processLinksResult_has net resolve M links k, ?_, ?_⟩
  · have h := processLinks_go_size net resolve M links []
    simpa [processLinksResult, mapSize] using h
  · intro events s htrace hfin j hj
    obtain ⟨hlen, hmem, htot⟩ := execTrace_inv htrace
    obtain ⟨hn, ha⟩ := hfin
    have hx := (hmem j).mpr (by omega)
    rcases hx with hja | hjd
    · rw [ha] at hja
      simp at hja
    · exact hjd

/-- Witness for C1: one entry probing `200` is in the set at its
position, the size bound holds, and in the finished schedule
`[submit, complete 0]` the single entry has resolved. -/
theorem processLinks_returns_complete_reachable_set_witness :
    mapHas (processLinksResult cNet200 cRes 3 [cItemA]) 2 = true
    ∧ mapSize (processLinksResult cNet200 cRes 3 [cItemA]) ≤ 1
    ∧ 0 ∈ (ExecState.mk 1 [] [0]).done := by
  have h := processLinks_returns_complete_reachable_set cNet200 cRes 3 [cItemA] 1
  refine ⟨(h.1 2).mpr ⟨cItemA, by simp, rfl, ?_⟩, h.2.1,
    h.2.2 [.submit, .complete 0] ⟨1, [], [0]⟩ rfl ⟨rfl, rfl⟩ 0 (by simp)⟩
  rw [show cItemA.url = "http://a".toList from rfl]
  rw [checkSingleLink]
  simp [cNet200]

/-- C10: For every entry list and positive concurrency limit `K`, at most
`K` validator invocations are in flight at any instant during `runAll`
(every reachable scheduler state has at most `K` active probes), and the
limit is enforced continuously rather than in batches: in any reachable
state with a free slot and a queued entry, the submit transition is
immediately enabled and starts exactly the next queued entry. -/
theorem executor_limit_continuous (total K : Nat) (hK : 0 < K)
    (events : List ExecEvent) (s : ExecState)
    (h : execTrace total K events = some s) :
    s.active.length ≤ K
    ∧ (s.nextIdx < total → s.active.length < K →
        execStep total K s .submit
          = some { nextIdx := s.nextIdx + 1, active := s.active ++ [s.nextIdx],
                   done := s.done }) := by
  obtain ⟨hlen, hmem, htot⟩ := execTrace_inv h
  refine ⟨hlen, ?_⟩
  intro h1 h2
  simp only [execStep]
  rw [if_pos ⟨h1, h2⟩]

/-- Witness for C10 in the reachable state after one submission with
`K = 1`, `N = 2`: the bound holds, and the enabledness implication is
the theorem's second conjunct at that state. -/
theorem executor_limit_continuous_witness :
    (ExecState.mk 1 [0] []).active.length ≤ 1
    ∧ ((ExecState.mk 1 [0] []).nextIdx < 2 → (ExecState.mk 1 [0] []).active.length < 1 →
        execStep 2 1 (ExecState.mk 1 [0] []) .submit
          = some { nextIdx := 1 + 1, active := [0] ++ [1], done := [] }) := by
  exact executor_limit_continuous 2 1 (by omega) [.submit] (ExecState.mk 1 [0] []) rfl

/-! ### Claim theorems: Rebuilder structure (C4) -/

lemma mem_pushIfNew_out {s : GenState} {l x : Str}
    (hx : x ∈ (pushIfNew s l).outputLines) : x ∈ s.outputLines ∨ x = l := by
  unfold pushIfNew at hx
  split at hx
  · exact Or.inl hx
  · rcases List.mem_append.mp hx with h | h
    · exact Or.inl h
    · exact Or.inr (List.mem_singleton.mp h)

lemma self_mem_pushIfNew {s : GenState} (hs : GenSync s) (l : Str) :
    l ∈ (pushIfNew s l).outputLines := by
  unfold pushIfNew
  split
  · rename_i hin
    exact (hs l).mpr hin
  · simp

/-- The document and validated set of the orphan-metadata scenario: two
entries share one URL and both validate. -/
def cOrphanContent : Str := "#EXTM3U\n#EXTINF:-1,A\nhttp://u\n#EXTINF:-1,B\nhttp://u".toList

/-- The validated set the Executor produces for `cOrphanContent` when both
probes answer `200`. -/
def cOrphanMap : ValidMap :=
  [(2, { titleLine := "#EXTINF:-1,A".toList, urlLine := "http://u".toList }),
   (4, { titleLine := "#EXTINF:-1,B".toList, urlLine := "http://u".toList })]

/-- C4 counterexample: the claim says the rebuild output never contains a
metadata-marker line without an immediately following resource line.  For
a document with two validated entries sharing the same URL, the shared
resource line is de-duplicated, and the second `#EXTINF` line is emitted
as the last output line with nothing after it: an orphaned metadata line.
The validated set used is exactly the one `processLinks` computes when
both probes answer `200`. -/
theorem rebuild_orphan_metadata_cex :
    processLinksResult cNet200 cRes 3 (parseM3UContent cOrphanContent) = cOrphanMap
    ∧ generateOutputLines cOrphanContent cOrphanMap
        = ["#EXTM3U".toList, "#EXTINF:-1,A".toList, "http://u".toList, "#EXTINF:-1,B".toList]
    ∧ strStartsWith "#EXTINF:-1,B".toList infTag = true
    ∧ (generateOutputLines cOrphanContent cOrphanMap).getLast?
        = some "#EXTINF:-1,B".toList := by
  refine ⟨?_, by decide, by decide, by decide⟩
  have h1 : parseM3UContent cOrphanContent
      = [{ title := "#EXTINF:-1,A".toList, url := "http://u".toList, originalIndex := 2,
           originalTitleLineIndex := 1 },
         { title := "#EXTINF:-1,B".toList, url := "http://u".toList, originalIndex := 4,
           originalTitleLineIndex := 3 }] := by decide
  have hA : checkSingleLink cNet200 cRes 3 "http://u".toList 0
      = { url := "http://u".toList, status := .code 200,
          finalUrl := some "http://u".toList } := by
    rw [checkSingleLink]
    simp [cNet200]
  rw [h1, processLinksResult]
  simp only [List.foldl_cons, List.foldl_nil, recordResult, hA]
  simp [mapSet, jsOrString, cOrphanMap, mapHas]

/-- C4 (amended): in the rebuild output, every metadata-marker line is
either the stored title of some validated entry whose stored resource
value is also present in the output — though, because of de-duplication,
possibly earlier in the document rather than immediately following — or
is itself the stored resource value of a validated entry.  No metadata
line is emitted whose paired resource value is absent from the output. -/
theorem rebuild_metadata_resource_present (content : Str) (m : ValidMap) :
    ∀ l ∈ generateOutputLines content m, strStartsWith l infTag = true →
      ∃ k v, mapGet m k = some v
        ∧ ((v.titleLine = l ∧ v.urlLine ∈ generateOutputLines content m)
            ∨ v.urlLine = l) := by
  have key := genLoop_preserves m (fun t => GenSync t ∧
      ∀ l ∈ t.outputLines, strStartsWith l infTag = true →
        ∃ k v, mapGet m k = some v
          ∧ ((v.titleLine = l ∧ v.urlLine ∈ t.outputLines) ∨ v.urlLine = l))
    ?_ ?_ ?_ (splitNl content) 0
    { outputLines := [hdrTag], addedLines := [hdrTag] }
    ⟨genSync_init, ?_⟩
  · intro l hl hst
    obtain ⟨k, v, hkv, hrest⟩ := key.2 l hl hst
    exact ⟨k, v, hkv, hrest⟩
  · intro k v s hkv hP
    have hs1 : GenSync (pushIfNew s v.titleLine) := pushIfNew_sync hP.1 _
    have hs2 : GenSync (pushIfNew (pushIfNew s v.titleLine) v.urlLine) := pushIfNew_sync hs1 _
    refine ⟨hs2, ?_⟩
    intro l hl hst
    have hu : v.urlLine ∈ (pushIfNew (pushIfNew s v.titleLine) v.urlLine).outputLines :=
      self_mem_pushIfNew hs1 v.urlLine
    rcases mem_pushIfNew_out hl with hl' | hl'
    · rcases mem_pushIfNew_out hl' with hl'' | hl''
      · obtain ⟨k', v', hkv', hrest⟩ := hP.2 l hl'' hst
        refine ⟨k', v', hkv', ?_⟩
        rcases hrest with ⟨ht, hm⟩ | hr
        · exact Or.inl ⟨ht, (subState_pushIfNew _ _).1 ((subState_pushIfNew _ _).1 hm)⟩
        · exact Or.inr hr
      · subst hl''
        exact ⟨k, v, hkv, Or.inl ⟨rfl, hu⟩⟩
    · subst hl'
      exact ⟨k, v, hkv, Or.inr rfl⟩
  · intro k v s hkv hP
    refine ⟨pushIfNew_sync hP.1 _, ?_⟩
    intro l hl hst
    rcases mem_pushIfNew_out hl with hl' | hl'
    · obtain ⟨k', v', hkv', hrest⟩ := hP.2 l hl' hst
      refine ⟨k', v', hkv', ?_⟩
      rcases hrest with ⟨ht, hm⟩ | hr
      · exact Or.inl ⟨ht, (subState_pushIfNew _ _).1 hm⟩
      · exact Or.inr hr
    · subst hl'
      exact ⟨k, v, hkv, Or.inr rfl⟩
  · intro line s hdr hinf hu hlen hP
    refine ⟨pushIfNew_sync hP.1 _, ?_⟩
    intro l hl hst
    rcases mem_pushIfNew_out hl with hl' | hl'
    · obtain ⟨k', v', hkv', hrest⟩ := hP.2 l hl' hst
      refine ⟨k', v', hkv', ?_⟩
      rcases hrest with ⟨ht, hm⟩ | hr
      · exact Or.inl ⟨ht, (subState_pushIfNew _ _).1 hm⟩
      · exact Or.inr hr
    · subst hl'
      exact absurd hst hinf
  · intro l hl hst
    rw [List.mem_singleton] at hl
    subst hl
    exact absurd hst (by decide)

/-- Witness for the amended C4: a single validated pair; the emitted
metadata line's stored resource value is present in the output. -/
theorem rebuild_metadata_resource_present_witness :
    ∃ k v, mapGet [(1, ValidEntry.mk "#EXTINF:x".toList "http://u".toList)] k = some v
      ∧ ((v.titleLine = "#EXTINF:x".toList
            ∧ v.urlLine ∈ generateOutputLines "#EXTINF:x\nhttp://u".toList
                [(1, ValidEntry.mk "#EXTINF:x".toList "http://u".toList)])
          ∨ v.urlLine = "#EXTINF:x".toList) := by
  exact rebuild_metadata_resource_present "#EXTINF:x\nhttp://u".toList
    [(1, ValidEntry.mk "#EXTINF:x".toList "http://u".toList)] "#EXTINF:x".toList
    (by decide) (by decide)

/-! ### Claim theorems: Parser metadata association (C6) -/

/-- The line of a document at an index, the empty string when out of
range. -/
def lineAt (lines : List Str) (j : Nat) : Str :=
  (lines[j]?).getD []

lemma drop_cons_head {full : List Str} {j : Nat} {a : Str} {rest : List Str}
    (h : full.drop j = a :: rest) :
    lineAt full j = a ∧ full.drop (j + 1) = rest := by
  constructor
  · have h0 : (full.drop j)[0]? = some a := by rw [h]; simp
    rw [List.getElem?_drop] at h0
    unfold lineAt
    rw [Nat.add_zero] at h0
    rw [h0]
    rfl
  · have h1 : (full.drop j).drop 1 = full.drop (j + 1) := by
      rw [List.drop_drop]
    rw [← h1, h]
    rfl

/-- The pending-title invariant of the Parser's scan (and of each emitted
entry): either no metadata is pending (`ti = -1`, empty title), or `ti`
points at the most recent metadata-marker line before position `i`, the
title is that line's trimmed text, and no metadata-marker or
resource-reference line lies strictly between the marker and `i`. -/
def TitleInv (full : List Str) (i : Nat) (t : Str) (ti : Int) : Prop :=
  (ti = -1 ∧ t = [])
  ∨ (∃ j : Nat, ti = Int.ofNat j ∧ j < i
      ∧ strStartsWith (strTrim (lineAt full j)) infTag = true
      ∧ t = strTrim (lineAt full j)
      ∧ ∀ u, j < u → u < i →
          ¬ strStartsWith (strTrim (lineAt full u)) infTag = true
          ∧ ¬ isUrlLine (strTrim (lineAt full u)) = true)

lemma parseGo_entries (full : List Str) :
    ∀ (lines : List Str) (i : Nat) (t : Str) (ti : Int),
      lines = full.drop i → TitleInv full i t ti →
      ∀ e ∈ parseGo lines i t ti,
        TitleInv full e.originalIndex e.title e.originalTitleLineIndex := by
  intro lines i t ti
  induction lines, i, t, ti using parseGo.induct with
  | case1 i t ti =>
    intro hdrop hInv e he
    rw [parseGo] at he
    exact absurd he (List.not_mem_nil e)
  | case2 lraw rest i t ti hmark ih =>
    intro hdrop hInv e he
    obtain ⟨hline, hrest⟩ := drop_cons_head hdrop.symm
    rw [parseGo] at he
    rw [if_pos hmark] at he
    refine ih hrest.symm ?_ e he
    refine Or.inr ⟨i, rfl, by omega, ?_, ?_, ?_⟩
    · rw [hline]; exact hmark
    · rw [hline]
    · intro u hu1 hu2; omega
  | case3 lraw rest i t ti hmark hurl ih =>
    intro hdrop hInv e he
    obtain ⟨hline, hrest⟩ := drop_cons_head hdrop.symm
    rw [parseGo] at he
    rw [if_neg hmark, if_pos hurl] at he
    rcases List.mem_cons.mp he with heq | he'
    · subst heq
      exact hInv
    · exact ih hrest.symm (Or.inl ⟨rfl, rfl⟩) e he'
  | case4 lraw rest i t ti hmark hurl ih =>
    intro hdrop hInv e he
    obtain ⟨hline, hrest⟩ := drop_cons_head hdrop.symm
    rw [parseGo] at he
    rw [if_neg hmark, if_neg hurl] at he
    refine ih hrest.symm ?_ e he
    rcases hInv with ⟨h1, h2⟩ | ⟨j, h1, h2, h3, h4, h5⟩
    · exact Or.inl ⟨h1, h2⟩
    · refine Or.inr ⟨j, h1, by omega, h3, h4, ?_⟩
      intro u hu1 hu2
      by_cases hui : u = i
      · subst hui
        rw [hline]
        exact ⟨hmark, hurl⟩
      · exact h5 u hu1 (by omega)

/-- C6 counterexample: the claim says metadata is associated only when
the marker immediately precedes the resource line with no intervening
non-blank, non-comment content.  In `"#EXTINF:-1,A\nhello\nhttp://u"`
the line `hello` — non-blank, not a comment — lies between marker and
resource line, yet the parser still associates the marker (title line
index `0`) with the resource line at index `2`. -/
theorem parse_metadata_despite_intervening_cex :
    parseM3UContent "#EXTINF:-1,A\nhello\nhttp://u".toList
      = [{ title := "#EXTINF:-1,A".toList, url := "http://u".toList, originalIndex := 2,
           originalTitleLineIndex := 0 }]
    ∧ strTrim (lineAt (splitNl "#EXTINF:-1,A\nhello\nhttp://u".toList) 1) = "hello".toList
    ∧ "hello".toList ≠ []
    ∧ strStartsWith "hello".toList "#".toList = false := by
  refine ⟨by decide, by decide, by decide, by decide⟩

/-- C6 (amended): a parsed entry's metadata line is the **most recent**
metadata-marker line above the resource line — regardless of any other
intervening content — with no other marker and no other resource line
strictly between the two; when no such marker exists the entry has an
empty title and index `-1`. -/
theorem parse_metadata_from_most_recent_marker (content : Str) :
    ∀ e ∈ parseM3UContent content,
      TitleInv (splitNl content) e.originalIndex e.title e.originalTitleLineIndex := by
  intro e he
  exact parseGo_entries (splitNl content) (splitNl content) 0 [] (-1) (by rfl)
    (Or.inl ⟨rfl, rfl⟩) e he

/-- Witness for the amended C6 on a two-line document. -/
theorem parse_metadata_from_most_recent_marker_witness :
    TitleInv (splitNl "#EXTINF:-1,A\nhttp://u".toList) 1 "#EXTINF:-1,A".toList 0 := by
  exact parse_metadata_from_most_recent_marker "#EXTINF:-1,A\nhttp://u".toList
    { title := "#EXTINF:-1,A".toList, url := "http://u".toList, originalIndex := 1,
      originalTitleLineIndex := 0 } (by decide)

/-! ### Claim theorems: verbatim pass-through of other lines (C9) -/

/-- C9 counterexample: the claim says any other non-empty input line is
emitted verbatim, character for character.  The line `" foo"` (with a
leading space) is neither header, marker, nor resource line and is
non-empty, yet the output contains only its trimmed value `"foo"`: the
exact original line never appears. -/
theorem rebuild_verbatim_cex :
    generateOutputLines " foo".toList [] = ["#EXTM3U".toList, "foo".toList]
    ∧ " foo".toList ∉ generateOutputLines " foo".toList []
    ∧ ¬ strStartsWith " foo".toList hdrTag = true
    ∧ ¬ strStartsWith " foo".toList infTag = true
    ∧ ¬ isUrlLine " foo".toList = true
    ∧ " foo".toList ≠ [] := by
  refine ⟨by decide, by decide, by decide, by decide, by decide, by decide⟩

lemma genLoop_emits_target (m : ValidMap) (full : List Str) (i : Nat)
    (hi : i < full.length)
    (hinf : ¬ strStartsWith (strTrim (lineAt full i)) infTag = true)
    (hdr : ¬ strStartsWith (strTrim (lineAt full i)) hdrTag = true)
    (hurl : ¬ isUrlLine (strTrim (lineAt full i)) = true)
    (hne : (strTrim (lineAt full i)).length > 0)
    (hpred : i = 0 ∨ ¬ strStartsWith (strTrim (lineAt full (i - 1))) infTag = true) :
    ∀ (lines : List Str) (j : Nat) (s : GenState), lines = full.drop j → GenSync s → j ≤ i →
      strTrim (lineAt full i) ∈ (genLoop m lines j s).outputLines := by
  intro lines j s
  induction lines, j, s using genLoop.induct m with
  | case1 j s =>
    intro hdrop hsync hji
    have : full.length ≤ j := List.drop_eq_nil_iff.mp hdrop.symm
    omega
  | case2 lraw j s h2 =>
    intro hdrop hsync hji
    obtain ⟨hline, hrest⟩ := drop_cons_head hdrop.symm
    have hlen1 : full.length ≤ j + 1 := by
      have := List.drop_eq_nil_iff.mp hrest
      omega
    have hij : i = j := by omega
    subst hij
    rw [← hline] at h2
    exact absurd h2 hdr
  | case3 lraw j s h2 h3 =>
    intro hdrop hsync hji
    obtain ⟨hline, hrest⟩ := drop_cons_head hdrop.symm
    have hlen1 : full.length ≤ j + 1 := by
      have := List.drop_eq_nil_iff.mp hrest
      omega
    have hij : i = j := by omega
    subst hij
    rw [← hline] at h3
    exact absurd h3 hinf
  | case4 lraw j s h2 h3 h4 v hv =>
    intro hdrop hsync hji
    obtain ⟨hline, hrest⟩ := drop_cons_head hdrop.symm
    have hlen1 : full.length ≤ j + 1 := by
      have := List.drop_eq_nil_iff.mp hrest
      omega
    have hij : i = j := by omega
    subst hij
    rw [← hline] at h4
    exact absurd h4 hurl
  | case5 lraw j s h2 h3 h4 hv =>
    intro hdrop hsync hji
    obtain ⟨hline, hrest⟩ := drop_cons_head hdrop.symm
    have hlen1 : full.length ≤ j + 1 := by
      have := List.drop_eq_nil_iff.mp hrest
      omega
    have hij : i = j := by omega
    subst hij
    rw [← hline] at h4
    exact absurd h4 hurl
  | case6 lraw j s h2 h3 h4 h5 =>
    intro hdrop hsync hji
    obtain ⟨hline, hrest⟩ := drop_cons_head hdrop.symm
    have hlen1 : full.length ≤ j + 1 := by
      have := List.drop_eq_nil_iff.mp hrest
      omega
    have hij : i = j := by omega
    subst hij
    rw [genLoop]
    rw [if_neg h2, if_neg h3, if_neg h4, if_pos h5]
    rw [← hline]
    exact self_mem_pushIfNew hsync _
  | case7 lraw j s h2 h3 h4 h5 =>
    intro hdrop hsync hji
    obtain ⟨hline, hrest⟩ := drop_cons_head hdrop.symm
    have hlen1 : full.length ≤ j + 1 := by
      have := List.drop_eq_nil_iff.mp hrest
      omega
    have hij : i = j := by omega
    subst hij
    rw [← hline] at h5
    exact absurd hne h5
  | case8 lraw l2 rest2 j s h2 ih =>
    intro hdrop hsync hji
    obtain ⟨hline, hrest⟩ := drop_cons_head hdrop.symm
    rcases Nat.eq_or_lt_of_le hji with hij | hlt
    · subst hij
      rw [← hline] at h2
      exact absurd h2 hdr
    · rw [genLoop, if_pos h2]
      exact ih hrest.symm hsync (by omega)
  | case9 lraw l2 rest2 j s h2 h3 v hv ih =>
    intro hdrop hsync hji
    obtain ⟨hline, hrest⟩ := drop_cons_head hdrop.symm
    obtain ⟨hline2, hrest2⟩ := drop_cons_head hrest
    rcases Nat.eq_or_lt_of_le hji with hij | hlt
    · subst hij
      rw [← hline] at h3
      exact absurd h3 hinf
    · have hj1 : j + 1 ≠ i := by
        intro hcon
        rcases hpred with h0 | hmk
        · omega
        · rw [← hcon] at hmk
          rw [Nat.add_sub_cancel] at hmk
          rw [hline] at hmk
          exact absurd h3 hmk
      rw [genLoop, if_neg h2, if_pos h3, hv]
      exact ih hrest2.symm (pushIfNew_sync (pushIfNew_sync hsync _) _) (by omega)
  | case10 lraw l2 rest2 j s h2 h3 hv ih =>
    intro hdrop hsync hji
    obtain ⟨hline, hrest⟩ := drop_cons_head hdrop.symm
    rcases Nat.eq_or_lt_of_le hji with hij | hlt
    · subst hij
      rw [← hline] at h3
      exact absurd h3 hinf
    · rw [genLoop, if_neg h2, if_pos h3, hv]
      exact ih hrest.symm hsync (by omega)
  | case11 lraw l2 rest2 j s h2 h3 h4 v hv ih =>
    intro hdrop hsync hji
    obtain ⟨hline, hrest⟩ := drop_cons_head hdrop.symm
    rcases Nat.eq_or_lt_of_le hji with hij | hlt
    · subst hij
      rw [← hline] at h4
      exact absurd h4 hurl
    · rw [genLoop, if_neg h2, if_neg h3, if_pos h4, hv]
      exact ih hrest.symm (pushIfNew_sync hsync _) (by omega)
  | case12 lraw l2 rest2 j s h2 h3 h4 hv ih =>
    intro hdrop hsync hji
    obtain ⟨hline, hrest⟩ := drop_cons_head hdrop.symm
    rcases Nat.eq_or_lt_of_le hji with hij | hlt
    · subst hij
      rw [← hline] at h4
      exact absurd h4 hurl
    · rw [genLoop, if_neg h2, if_neg h3, if_pos h4, hv]
      exact ih hrest.symm hsync (by omega)
  | case13 lraw l2 rest2 j s h2 h3 h4 h5 ih =>
    intro hdrop hsync hji
    obtain ⟨hline, hrest⟩ := drop_cons_head hdrop.symm
    rcases Nat.eq_or_lt_of_le hji with hij | hlt
    · subst hij
      rw [genLoop, if_neg h2, if_neg h3, if_neg h4, if_pos h5]
      have hmem : strTrim (lineAt full j) ∈ (pushIfNew s (strTrim lraw)).outputLines := by
        rw [hline]
        exact self_mem_pushIfNew hsync _
      exact (genLoop_subState m (l2 :: rest2) (j + 1) (pushIfNew s (strTrim lraw))).1 hmem
    · rw [genLoop, if_neg h2, if_neg h3, if_neg h4, if_pos h5]
      exact ih hrest.symm (pushIfNew_sync hsync _) (by omega)
  | case14 lraw l2 rest2 j s h2 h3 h4 h5 ih =>
    intro hdrop hsync hji
    obtain ⟨hline, hrest⟩ := drop_cons_head hdrop.symm
    rcases Nat.eq_or_lt_of_le hji with hij | hlt
    · subst hij
      rw [← hline] at h5
      exact absurd hne h5
    · rw [genLoop, if_neg h2, if_neg h3, if_neg h4, if_neg h5]
      exact ih hrest.symm hsync (by omega)

/-- C9 (amended): for every input line that is neither the header, nor a
metadata-marker line, nor a resource-reference line, is non-blank, and is
not immediately preceded by a metadata-marker line (which could consume
it as its paired resource position), the rebuild output contains the
line's **trimmed** value — not the verbatim original: surrounding
whitespace is stripped, and a repeated value is emitted only once. -/
theorem rebuild_emits_other_lines_trimmed (content : Str) (m : ValidMap) (i : Nat)
    (hi : i < (splitNl content).length)
    (hdr : ¬ strStartsWith (strTrim (lineAt (splitNl content) i)) hdrTag = true)
    (hinf : ¬ strStartsWith (strTrim (lineAt (splitNl content) i)) infTag = true)
    (hurl : ¬ isUrlLine (strTrim (lineAt (splitNl content) i)) = true)
    (hne : (strTrim (lineAt (splitNl content) i)).length > 0)
    (hpred : i = 0 ∨ ¬ strStartsWith (strTrim (lineAt (splitNl content) (i - 1))) infTag = true) :
    strTrim (lineAt (splitNl content) i) ∈ generateOutputLines content m := by
  exact genLoop_emits_target m (splitNl content) i hi hinf hdr hurl hne hpred
    (splitNl content) 0 { outputLines := [hdrTag], addedLines := [hdrTag] }
    rfl genSync_init (by omega)

/-- Witness for the amended C9: the trimmed `#EXTGRP` line of a two-line
document is emitted. -/
theorem rebuild_emits_other_lines_trimmed_witness :
    strTrim (lineAt (splitNl "#EXTM3U\n #EXTGRP:News ".toList) 1)
      ∈ generateOutputLines "#EXTM3U\n #EXTGRP:News ".toList [] := by
  exact rebuild_emits_other_lines_trimmed "#EXTM3U\n #EXTGRP:News ".toList [] 1
    (by decide) (by decide) (by decide) (by decide) (by decide) (Or.inr (by decide))

/-! ### Claim theorems: Coordinator decision policy (C7) -/

lemma processLinks_go_none (net : Str → FetchResult) (resolve : Str → Str → Str)
    (M : Nat) (links : List LinkItem)
    (h : ∀ item ∈ links, ¬ (checkSingleLink net resolve M item.url 0).status = .code 200) :
    ∀ m0 : ValidMap, links.foldl (fun m item =>
      recordResult m item (checkSingleLink net resolve M item.url 0)) m0 = m0 := by
  induction links with
  | nil => intro m0; rfl
  | cons it rest ih =>
    intro m0
    rw [List.foldl_cons]
    have hrec : recordResult m0 it (checkSingleLink net resolve M it.url 0) = m0 := by
      unfold recordResult
      rw [if_neg (h it (List.mem_cons_self it rest))]
    rw [hrec]
    exact ih (fun x hx => h x (List.mem_cons_of_mem _ hx)) m0

/-- C7: the Coordinator's persist decision.  If parsing yields zero
resource entries, the original content is passed through the Rebuilder
with an empty ValidatedSet and the result is persisted exactly when it
trims to something other than the bare header line (i.e. it contains
content beyond the header).  If entries exist but none of them validates
with status `200`, no output is persisted for the document. -/
theorem coordinator_persist_policy (net : Str → FetchResult) (resolve : Str → Str → Str)
    (M : Nat) (content : Str) :
    (parseM3UContent content = [] →
      processDocument net resolve M content
        = if strTrim (generateOutputM3U content []) ≠ hdrTag
          then some (generateOutputM3U content []) else none)
    ∧ (parseM3UContent content ≠ [] →
        (∀ item ∈ parseM3UContent content,
          ¬ (checkSingleLink net resolve M item.url 0).status = .code 200) →
        processDocument net resolve M content = none) := by
  constructor
  · intro h
    unfold processDocument
    rw [h]
    simp
  · intro hne hall
    unfold processDocument
    have hlen : ¬ (parseM3UContent content).length = 0 := by
      simpa [List.length_eq_zero] using hne
    rw [if_neg hlen]
    have hzero : processLinksResult net resolve M (parseM3UContent content) = [] := by
      unfold processLinksResult
      exact processLinks_go_none net resolve M (parseM3UContent content) hall []
    rw [hzero]
    simp [mapSize]

/-- Witness for C7: a document with only header and `#EXTGRP` data (zero
entries) is persisted as its rebuild; a document with one entry probing
`204` everywhere is not persisted. -/
theorem coordinator_persist_policy_witness :
    processDocument cNet200 cRes 3 "#EXTM3U\n#EXTGRP:x".toList
      = some (generateOutputM3U "#EXTM3U\n#EXTGRP:x".toList [])
    ∧ processDocument cNet204 cRes 3 "#EXTM3U\n#EXTINF:-1,A\nhttp://a".toList = none := by
  constructor
  · have h := (coordinator_persist_policy cNet200 cRes 3 "#EXTM3U\n#EXTGRP:x".toList).1
      (by decide)
    rw [h]
    rw [if_pos (by decide)]
  · refine (coordinator_persist_policy cNet204 cRes 3
      "#EXTM3U\n#EXTINF:-1,A\nhttp://a".toList).2 (by decide) ?_
    intro item him
    have hp : parseM3UContent "#EXTM3U\n#EXTINF:-1,A\nhttp://a".toList
        = [{ title := "#EXTINF:-1,A".toList, url := "http://a".toList, originalIndex := 2,
             originalTitleLineIndex := 1 }] := by decide
    rw [hp] at him
    rw [List.mem_singleton] at him
    subst him
    rw [checkSingleLink]
    simp [cNet204]

/-! ### Claim theorems: document-level failures (C8) -/

/-- A read oracle failing on `a.m3u` only. -/
def cReadFail : String → Except String Str := fun f =>
  if f = "a.m3u" then .error "boom"
  else .ok "#EXTM3U\n#EXTINF:-1,A\nhttp://a".toList

/-- A write oracle that always succeeds. -/
def cWriteOk : String → Str → Except String Unit := fun _ _ => .ok ()

/-- A read oracle always returning a header-plus-`#EXTGRP` document. -/
def cReadGrp : String → Except String Str := fun _ => .ok "#EXTM3U\n#EXTGRP:x".toList

/-- A write oracle that always fails. -/
def cWriteFail : String → Str → Except String Unit := fun _ _ => .error "disk"

/-- C8 counterexample: the claim says a document-level failure aborts only
that document and the remaining documents are still processed.  But the
single `try`/`catch` around the whole loop ends the run on the first
error (`process.exit(1)`, source lines 343–346): when reading `a.m3u`
fails, the run aborts with no per-document results at all — `b.m3u`,
whose read would have succeeded, is never processed. -/
theorem docfailure_not_isolated_cex :
    mainRun cReadFail cWriteOk cNet200 cRes 3 ["a.m3u", "b.m3u"] = ([], some "boom")
    ∧ (∀ p ∈ (mainRun cReadFail cWriteOk cNet200 cRes 3 ["a.m3u", "b.m3u"]).1,
        p.1 ≠ "b.m3u")
    ∧ cReadFail "b.m3u" = .ok "#EXTM3U\n#EXTINF:-1,A\nhttp://a".toList := by
  refine ⟨by decide, ?_, by unfold cReadFail; rw [if_neg (by decide)]⟩
  intro p hp
  have h : mainRun cReadFail cWriteOk cNet200 cRes 3 ["a.m3u", "b.m3u"]
      = ([], some "boom") := by decide
  rw [h] at hp
  exact absurd hp (List.not_mem_nil p)

/-- C8 (amended): a document-level failure (read or write) aborts the
**whole run**, not just that document: the run's result is the error,
with no further documents processed (the loop is wrapped in one
`try`/`catch` ending the process). -/
theorem docfailure_aborts_run (read : String → Except String Str)
    (write : String → Str → Except String Unit) (net : Str → FetchResult)
    (resolve : Str → Str → Str) (M : Nat) (f : String) (fs : List String) (e : String) :
    (read f = .error e → mainRun read write net resolve M (f :: fs) = ([], some e))
    ∧ (∀ content out, read f = .ok content →
        processDocument net resolve M content = some out →
        write f out = .error e →
        mainRun read write net resolve M (f :: fs) = ([], some e)) := by
  constructor
  · intro h
    simp only [mainRun, h]
  · intro content out h1 h2 h3
    simp only [mainRun, h1, h2, h3]

/-- Witness for the amended C8: a read failure and a write failure each
abort the run immediately. -/
theorem docfailure_aborts_run_witness :
    mainRun cReadFail cWriteOk cNet200 cRes 3 ["a.m3u", "b.m3u"] = ([], some "boom")
    ∧ mainRun cReadGrp cWriteFail cNet200 cRes 3 ["x.m3u"] = ([], some "disk") := by
  constructor
  · exact (docfailure_aborts_run cReadFail cWriteOk cNet200 cRes 3
      "a.m3u" ["b.m3u"] "boom").1 (by unfold cReadFail; rw [if_pos (by decide)])
  · exact (docfailure_aborts_run cReadGrp cWriteFail cNet200 cRes 3
      "x.m3u" [] "disk").2 "#EXTM3U\n#EXTGRP:x".toList
      (generateOutputM3U "#EXTM3U\n#EXTGRP:x".toList []) rfl (by decide) rfl

end M3UChecker
